import Mathlib

/-!
Verification of the categorical encoder and the prediction flow of the
flight-satisfaction demo application.

The repository owns two pieces of logic:

* `scripts/categorical_encoder.py` defines `encode_categorical(df)`, which
  replaces every object-dtype (string) column of a pandas DataFrame by the
  integer codes of `pd.Categorical(df[column]).codes`.  With no explicit
  category list, pandas infers the categories as the lexicographically
  sorted distinct non-null values of the column; each entry is replaced by
  the index of its value in that sorted list, and missing values receive
  the sentinel code `-1`.
* `app-prod.py` defines `make_prediction(...)`, which encodes the input
  record, transforms it with a fitted preprocessing pipeline, predicts with
  the selected model, computes SHAP and LIME explanations, and wraps the
  whole body in a try/except that converts any failure into a single
  user-visible error message and an all-`None` result.

Tables are embedded as ordered lists of named columns.  A column is either
an object (string) column whose entries may be missing, or a numeric
(integer) column; this matches the data model of the application, whose
object columns only ever hold strings of small fixed enumerations.
-/

namespace MLApp

/-- A pandas column as used by this application: an object-dtype column of
optional strings (missing entries are `none`) or a numeric column of
integers. -/
inductive Column where
  | strCol : List (Option String) → Column
  | intCol : List Int → Column
deriving DecidableEq, Repr

/-- A DataFrame: an ordered collection of named columns. -/
abbrev DataFrame := List (String × Column)

/-- Code-point lexicographic comparison of character lists, the order Python
uses to compare strings (and hence the order in which pandas sorts the
distinct values of an object column when inferring categories). -/
def leChars : List Char → List Char → Bool
  | [], _ => true
  | _ :: _, [] => false
  | a :: as, b :: bs =>
    if a.toNat < b.toNat then true
    else if b.toNat < a.toNat then false
    else leChars as bs

/-- Python string comparison: code-point lexicographic order. -/
def strle (a b : String) : Prop := leChars a.data b.data = true

instance : DecidableRel strle := fun a b =>
  inferInstanceAs (Decidable (leChars a.data b.data = true))

/-- The inferred category list of `pd.Categorical(values)`: the distinct
non-null values in lexicographically sorted order. -/
def sortedCategories (vals : List (Option String)) : List String :=
  List.insertionSort strle (vals.filterMap id).dedup

/-- The integer code `pd.Categorical(values)` assigns to the string `s`:
its index in the sorted category list. -/
def codeOf (vals : List (Option String)) (s : String) : Int :=
  ((sortedCategories vals).indexOf s : Int)

/-- `pd.Categorical(values).codes`: each non-null entry is replaced by the
index of its value in the sorted category list, each missing entry by the
sentinel `-1`. -/
def catCodes (vals : List (Option String)) : List Int :=
  vals.map fun v =>
    match v with
    | none => -1
    | some s => codeOf vals s

/-- The per-column action of `encode_categorical`: object columns are
replaced by their categorical codes, numeric columns are left as they
are (`select_dtypes(include=[object])` only selects object columns). -/
def encodeColumn : Column → Column
  | .strCol vals => .intCol (catCodes vals)
  | .intCol zs => .intCol zs

/-- `encode_categorical(df)` from `scripts/categorical_encoder.py`: every
object-dtype column is replaced, in place, by `pd.Categorical(col).codes`;
the table keeps its columns in order and is returned. -/
def encode_categorical (df : DataFrame) : DataFrame :=
  df.map fun p => (p.1, encodeColumn p.2)

/-- Look up a column of a DataFrame by name. -/
def getCol (df : DataFrame) (name : String) : Option Column :=
  (df.find? fun p => p.1 == name).map fun p => p.2

/-- The number of rows of a column. -/
def Column.nrows : Column → Nat
  | .strCol vals => vals.length
  | .intCol zs => zs.length

/-- The label string `make_prediction` builds from `prediction[0]`:
`Satisfied 😊` when the model predicts the positive class, otherwise
`Not Satisfied 😞`. -/
def labelOf (b : Bool) : String :=
  if b then "Satisfied 😊" else "Not Satisfied 😞"

/-- The single user-visible message the except-branch of `make_prediction`
shows via `st.error`. -/
def errorMessage (e : String) : String :=
  "Error occurred during prediction: " ++ e ++ ". Please contact support."

/-- `make_prediction` from `app-prod.py`.  The externally supplied
collaborators (the fitted preprocessing pipeline, the model, the SHAP
explainer and the LIME explainer) are parameters; each is a fallible stage
returning either a value or the message of the exception it raises.  The
body encodes the input record, transforms it, predicts, computes SHAP
values and the LIME explanation in order; the first failure aborts the body
(the try block), is converted into a single user-visible `errorMessage`,
and the function returns `None` for all five result components.  On success
no error is shown and all five components are present. -/
def make_prediction {T S L : Type}
    (transform : DataFrame → Except String T)
    (predict : T → Except String Bool)
    (shapValues : T → Except String S)
    (limeExplain : T → Except String L)
    (expectedValue : Int)
    (input_df : DataFrame) :
    (Option String × Option S × Option Int × Option T × Option L) × Option String :=
  match transform (encode_categorical input_df) with
  | .error e => ((none, none, none, none, none), some (errorMessage e))
  | .ok t =>
    match predict t with
    | .error e => ((none, none, none, none, none), some (errorMessage e))
    | .ok p =>
      match shapValues t with
      | .error e => ((none, none, none, none, none), some (errorMessage e))
      | .ok sv =>
        match limeExplain t with
        | .error e => ((none, none, none, none, none), some (errorMessage e))
        | .ok le =>
          ((some (labelOf p), some sv, some expectedValue, some t, some le), none)

/-- The predict path of `make_prediction` with its in-place effect on the
input record made explicit: `encode_categorical(input_df)` mutates
`input_df`, so one run both produces a prediction and leaves the record in
its encoded state.  The returned pair is (prediction, state of the record
after the run). -/
def predictPath {T : Type}
    (transform : DataFrame → Except String T)
    (predict : T → Except String Bool)
    (df : DataFrame) :
    Except String Bool × DataFrame :=
  (match transform (encode_categorical df) with
   | .error e => .error e
   | .ok t => predict t,
   encode_categorical df)

/-- The single-row DataFrame `user_input_features` returns when every
widget is left at its default value: the five sliders at their midpoint 3,
`Age` at 18, `Flight Distance` at 100, and each selectbox at its first
option. -/
def user_input_features_default : DataFrame :=
  [("Online boarding", .intCol [3]),
   ("Inflight wifi service", .intCol [3]),
   ("Inflight entertainment", .intCol [3]),
   ("Checkin service", .intCol [3]),
   ("Seat comfort", .intCol [3]),
   ("Age", .intCol [18]),
   ("Flight Distance", .intCol [100]),
   ("Business Travel", .strCol [some "Yes"]),
   ("Loyal Customer", .strCol [some "Yes"]),
   ("Class", .strCol [some "Eco"])]

/-- Whether a column is an object (string) column. -/
def Column.isStringCol : Column → Bool
  | .strCol _ => true
  | .intCol _ => false

example :
    encode_categorical [("Class", .strCol [some "Eco", some "Business", some "Eco"])] =
      [("Class", .intCol [1, 0, 1])] := by decide

example :
    encode_categorical [("Class", .strCol [some "Eco"]), ("Age", .intCol [18])] =
      [("Class", .intCol [0]), ("Age", .intCol [18])] := by decide

example :
    encode_categorical [("C", .strCol [some "b", none, some "a"])] =
      [("C", .intCol [1, -1, 0])] := by decide

/-! Order-theoretic facts about the code-point lexicographic comparison. -/

theorem char_eq_of_toNat_eq {a b : Char} (h : a.toNat = b.toNat) : a = b := by
  have h2 := congrArg Char.ofNat h
  rwa [Char.ofNat_toNat, Char.ofNat_toNat] at h2

theorem leChars_refl (as : List Char) : leChars as as = true := by
  induction as with
  | nil => rfl
  | cons a as ih => simp [leChars, ih]

theorem leChars_total (as : List Char) : ∀ bs, leChars as bs = true ∨ leChars bs as = true := by
  induction as with
  | nil => intro bs; exact Or.inl rfl
  | cons a as ih =>
    intro bs
    cases bs with
    | nil => exact Or.inr rfl
    | cons b bs =>
      rcases Nat.lt_trichotomy a.toNat b.toNat with h | h | h
      · exact Or.inl (by simp [leChars, h])
      · rcases ih bs with h2 | h2
        · exact Or.inl (by simp [leChars, h, h2])
        · exact Or.inr (by simp [leChars, h.symm, h2])
      · exact Or.inr (by simp [leChars, h])

theorem leChars_trans (as : List Char) :
    ∀ bs cs, leChars as bs = true → leChars bs cs = true → leChars as cs = true := by
  induction as with
  | nil => intro bs cs _ _; rfl
  | cons a as ih =>
    intro bs cs hab hbc
    cases bs with
    | nil => simp [leChars] at hab
    | cons b bs =>
      cases cs with
      | nil => simp [leChars] at hbc
      | cons c cs =>
        simp only [leChars] at hab hbc ⊢
        by_cases hab1 : a.toNat < b.toNat
        · by_cases hbc1 : b.toNat < c.toNat
          · simp [Nat.lt_trans hab1 hbc1]
          · by_cases hbc2 : c.toNat < b.toNat
            · simp [hbc1, hbc2] at hbc
            · have hac : a.toNat < c.toNat := by omega
              simp [hac]
        · by_cases hab2 : b.toNat < a.toNat
          · simp [hab1, hab2] at hab
          · simp [hab1, hab2] at hab
            by_cases hbc1 : b.toNat < c.toNat
            · have hac : a.toNat < c.toNat := by omega
              simp [hac]
            · by_cases hbc2 : c.toNat < b.toNat
              · simp [hbc1, hbc2] at hbc
              · simp [hbc1, hbc2] at hbc
                have h3 : ¬a.toNat < c.toNat := by omega
                have h4 : ¬c.toNat < a.toNat := by omega
                simp [h3, h4, ih bs cs hab hbc]

theorem leChars_antisymm (as : List Char) :
    ∀ bs, leChars as bs = true → leChars bs as = true → as = bs := by
  induction as with
  | nil =>
    intro bs h1 h2
    cases bs with
    | nil => rfl
    | cons b bs => simp [leChars] at h2
  | cons a as ih =>
    intro bs h1 h2
    cases bs with
    | nil => simp [leChars] at h1
    | cons b bs =>
      simp only [leChars] at h1 h2
      by_cases hab : a.toNat < b.toNat
      · simp [hab, Nat.lt_asymm hab] at h2
      · by_cases hba : b.toNat < a.toNat
        · simp [hab, hba] at h1
        · simp [hab, hba] at h1 h2
          have hc : a = b := char_eq_of_toNat_eq (by omega)
          rw [hc, ih bs h1 h2]

theorem strle_refl (a : String) : strle a a := leChars_refl a.data

instance : IsTotal String strle := ⟨fun a b => leChars_total a.data b.data⟩

instance : IsTrans String strle :=
  ⟨fun a b c hab hbc => leChars_trans a.data b.data c.data hab hbc⟩

instance : IsAntisymm String strle :=
  ⟨fun a b h1 h2 => by
    cases a with
    | mk d1 =>
      cases b with
      | mk d2 => exact congrArg String.mk (leChars_antisymm d1 d2 h1 h2)⟩

/-! Facts about the inferred category list and the codes it induces. -/

theorem sortedCategories_sorted (vals : List (Option String)) :
    List.Sorted strle (sortedCategories vals) :=
  List.sorted_insertionSort strle _

theorem sortedCategories_perm (vals : List (Option String)) :
    List.Perm (sortedCategories vals) (vals.filterMap id).dedup :=
  List.perm_insertionSort strle _

theorem sortedCategories_nodup (vals : List (Option String)) :
    (sortedCategories vals).Nodup :=
  (sortedCategories_perm vals).nodup_iff.mpr (List.nodup_dedup _)

theorem mem_sortedCategories {vals : List (Option String)} {s : String} :
    s ∈ sortedCategories vals ↔ s ∈ vals.filterMap id := by
  rw [(sortedCategories_perm vals).mem_iff, List.mem_dedup]

theorem sortedCategories_length (vals : List (Option String)) :
    (sortedCategories vals).length = (vals.filterMap id).toFinset.card := by
  rw [(sortedCategories_perm vals).length_eq, List.card_toFinset]

theorem codeOf_nonneg (vals : List (Option String)) (s : String) : 0 ≤ codeOf vals s :=
  Int.natCast_nonneg _

theorem codeOf_lt_card {vals : List (Option String)} {s : String}
    (h : s ∈ vals.filterMap id) :
    codeOf vals s < ((vals.filterMap id).toFinset.card : Int) := by
  have hmem : s ∈ sortedCategories vals := mem_sortedCategories.mpr h
  have hlt := List.indexOf_lt_length.mpr hmem
  rw [sortedCategories_length] at hlt
  unfold codeOf
  exact_mod_cast hlt

theorem codeOf_inj {vals : List (Option String)} {s t : String}
    (hs : s ∈ vals.filterMap id) (ht : t ∈ vals.filterMap id) :
    codeOf vals s = codeOf vals t ↔ s = t := by
  unfold codeOf
  rw [Nat.cast_inj]
  exact List.indexOf_inj (mem_sortedCategories.mpr hs) (mem_sortedCategories.mpr ht)

theorem codeOf_lt_codeOf {vals : List (Option String)} {s t : String}
    (hs : s ∈ vals.filterMap id) (ht : t ∈ vals.filterMap id)
    (hle : strle s t) (hne : s ≠ t) :
    codeOf vals s < codeOf vals t := by
  have hs' : s ∈ sortedCategories vals := mem_sortedCategories.mpr hs
  have ht' : t ∈ sortedCategories vals := mem_sortedCategories.mpr ht
  have hi := List.indexOf_lt_length.mpr hs'
  have hj := List.indexOf_lt_length.mpr ht'
  have key : (sortedCategories vals).indexOf s < (sortedCategories vals).indexOf t := by
    rcases Nat.lt_trichotomy ((sortedCategories vals).indexOf s)
      ((sortedCategories vals).indexOf t) with h | h | h
    · exact h
    · exact absurd ((List.indexOf_inj hs' ht').mp h) hne
    · exfalso
      have hrel := (sortedCategories_sorted vals).rel_get_of_lt
        (a := ⟨(sortedCategories vals).indexOf t, hj⟩)
        (b := ⟨(sortedCategories vals).indexOf s, hi⟩) h
      rw [List.indexOf_get, List.indexOf_get] at hrel
      exact hne (antisymm hle hrel)
  unfold codeOf
  exact_mod_cast key

theorem toFinset_map_eq_image {α β : Type} [DecidableEq α] [DecidableEq β]
    (f : α → β) (l : List α) : (l.map f).toFinset = l.toFinset.image f := by
  induction l with
  | nil => rfl
  | cons a l ih => simp [ih]

/-! Facts about the per-column and per-table encoding. -/

theorem encodeColumn_nrows (c : Column) : (encodeColumn c).nrows = c.nrows := by
  cases c with
  | strCol vals => simp [encodeColumn, Column.nrows, catCodes]
  | intCol zs => rfl

theorem encodeColumn_isStringCol (c : Column) : (encodeColumn c).isStringCol = false := by
  cases c <;> rfl

theorem getCol_encode (df : DataFrame) (name : String) :
    getCol (encode_categorical df) name = (getCol df name).map encodeColumn := by
  induction df with
  | nil => rfl
  | cons p df ih =>
    cases hpq : (p.1 == name) with
    | true => simp [getCol, encode_categorical, List.find?_cons, hpq]
    | false =>
      simp only [getCol, encode_categorical, List.map_cons, List.find?_cons, hpq] at ih ⊢
      exact ih

theorem filterMap_id_map_some (vs : List String) : (vs.map some).filterMap id = vs := by
  simp

theorem some_mem_iff {vals : List (Option String)} {s : String} :
    some s ∈ vals ↔ s ∈ vals.filterMap id := by
  simp [List.mem_filterMap]

theorem catCodes_map_some (vs : List String) :
    catCodes (vs.map some) = vs.map (codeOf (vs.map some)) := by
  simp [catCodes, List.map_map, Function.comp]

theorem catCodes_length (vals : List (Option String)) :
    (catCodes vals).length = vals.length := by
  simp [catCodes]

theorem catCodes_eq_elim (vals : List (Option String)) :
    catCodes vals = vals.map fun v => v.elim (-1) (codeOf vals) := by
  have hf : (fun v : Option String =>
      match v with
      | none => (-1 : Int)
      | some s => codeOf vals s) = fun v => v.elim (-1) (codeOf vals) := by
    funext v
    cases v <;> rfl
  rw [catCodes, hf]

theorem encode_of_no_string_columns {df : DataFrame}
    (h : ∀ p ∈ df, p.2.isStringCol = false) : encode_categorical df = df := by
  induction df with
  | nil => rfl
  | cons p df ih =>
    have hp := h p (List.mem_cons_self p df)
    have hrest : ∀ q ∈ df, q.2.isStringCol = false :=
      fun q hq => h q (List.mem_cons_of_mem _ hq)
    have hcol : encodeColumn p.2 = p.2 := by
      cases hc : p.2 with
      | strCol vals => rw [hc] at hp; simp [Column.isStringCol] at hp
      | intCol zs => rfl
    calc encode_categorical (p :: df)
        = (p.1, encodeColumn p.2) :: encode_categorical df := rfl
      _ = p :: df := by rw [hcol, ih hrest]

theorem encode_all_not_string (df : DataFrame) :
    ∀ p ∈ encode_categorical df, p.2.isStringCol = false := by
  intro p hp
  simp only [encode_categorical, List.mem_map] at hp
  obtain ⟨q, _, rfl⟩ := hp
  exact encodeColumn_isStringCol q.2

theorem encode_categorical_idem (df : DataFrame) :
    encode_categorical (encode_categorical df) = encode_categorical df :=
  encode_of_no_string_columns (encode_all_not_string df)

theorem filterMap_id_replicate_some (s : String) (n : Nat) :
    (List.replicate n (some s)).filterMap id = List.replicate n s := by
  induction n with
  | zero => rfl
  | succ n ih => simp [List.replicate_succ, ih]

theorem dedup_replicate_succ (s : String) (n : Nat) :
    (List.replicate (n + 1) s).dedup = [s] := by
  induction n with
  | zero => rfl
  | succ n ih =>
    rw [List.replicate_succ, List.dedup_cons_of_mem (by simp [List.mem_replicate]), ih]

theorem catCodes_replicate (s : String) (n : Nat) :
    catCodes (List.replicate n (some s)) = List.replicate n 0 := by
  cases n with
  | zero => rfl
  | succ n =>
    have hcode : codeOf (List.replicate (n + 1) (some s)) s = 0 := by
      unfold codeOf sortedCategories
      rw [filterMap_id_replicate_some, dedup_replicate_succ]
      simp [List.insertionSort, List.orderedInsert]
    unfold catCodes
    rw [List.map_replicate]
    simp [hcode]

theorem mem_map_some_filterMap {vs : List String} {s : String} (hs : s ∈ vs) :
    s ∈ (vs.map some).filterMap id := by
  rw [filterMap_id_map_some]
  exact hs

/-! The claims. -/

/-- C1: for every table and every column with k distinct string values, one
call to `encode_categorical` replaces each string value with a non-negative
integer code given by a single value-to-code function (so equal string
values always receive equal codes), distinct values receive distinct codes,
and the encoded column carries exactly k distinct codes. -/
theorem encode_categorical_distinct_codes (df : DataFrame) (name : String)
    (vs : List String) (h : getCol df name = some (.strCol (vs.map some))) :
    ∃ code : String → Int,
      getCol (encode_categorical df) name = some (.intCol (vs.map code)) ∧
      (∀ s, 0 ≤ code s) ∧
      (∀ s ∈ vs, ∀ t ∈ vs, (code s = code t ↔ s = t)) ∧
      (vs.map code).toFinset.card = vs.toFinset.card := by
  refine ⟨codeOf (vs.map some), ?_, fun s => codeOf_nonneg _ s, ?_, ?_⟩
  · rw [getCol_encode, h]
    simp [encodeColumn, catCodes_map_some]
  · intro s hs t ht
    exact codeOf_inj (mem_map_some_filterMap hs) (mem_map_some_filterMap ht)
  · rw [toFinset_map_eq_image]
    apply Finset.card_image_of_injOn
    intro s hs t ht hst
    simp only [Finset.mem_coe, List.mem_toFinset] at hs ht
    exact (codeOf_inj (mem_map_some_filterMap hs) (mem_map_some_filterMap ht)).mp hst

/-- Witness for C1 at the spec example column `[Eco, Business, Eco]`. -/
theorem encode_categorical_distinct_codes_witness :
    ∃ code : String → Int,
      getCol (encode_categorical
          [("Class", Column.strCol [some "Eco", some "Business", some "Eco"])]) "Class"
        = some (.intCol (["Eco", "Business", "Eco"].map code)) ∧
      (∀ s, 0 ≤ code s) ∧
      (∀ s ∈ ["Eco", "Business", "Eco"], ∀ t ∈ ["Eco", "Business", "Eco"],
        (code s = code t ↔ s = t)) ∧
      ((["Eco", "Business", "Eco"] : List String).map code).toFinset.card
        = (["Eco", "Business", "Eco"] : List String).toFinset.card :=
  encode_categorical_distinct_codes _ "Class" ["Eco", "Business", "Eco"] (by decide)

/-- C2: the string-to-code mapping of a column is derived solely from the
set of distinct values observed in that column during that call, and there
are two tables containing the same string in the same column whose two
calls assign that string different codes: a single-row user-input table
maps Eco to 0, while a reference table holding Business and Eco maps Eco
to 1. -/
theorem encode_categorical_per_call_mapping :
    (∀ vs1 vs2 : List (Option String),
      (vs1.filterMap id).toFinset = (vs2.filterMap id).toFinset →
      ∀ s, codeOf vs1 s = codeOf vs2 s) ∧
    getCol (encode_categorical [("Class", Column.strCol [some "Eco"])]) "Class"
      = some (.intCol [0]) ∧
    getCol (encode_categorical
        [("Class", Column.strCol [some "Business", some "Eco"])]) "Class"
      = some (.intCol [0, 1]) ∧
    codeOf [some "Eco"] "Eco" = 0 ∧
    codeOf [some "Business", some "Eco"] "Eco" = 1 := by
  refine ⟨?_, by decide, by decide, by decide, by decide⟩
  intro vs1 vs2 hset s
  have hcats : sortedCategories vs1 = sortedCategories vs2 := by
    apply List.eq_of_perm_of_sorted ?_ (sortedCategories_sorted vs1)
      (sortedCategories_sorted vs2)
    apply List.perm_of_nodup_nodup_toFinset_eq (sortedCategories_nodup vs1)
      (sortedCategories_nodup vs2)
    rw [List.toFinset_eq_of_perm _ _ (sortedCategories_perm vs1),
      List.toFinset_eq_of_perm _ _ (sortedCategories_perm vs2)]
    rw [List.toFinset.ext fun x => List.mem_dedup,
      List.toFinset.ext fun x => List.mem_dedup]
    exact hset
  unfold codeOf
  rw [hcats]

/-- Witness for C2: two passes over different slices that observe the same
distinct-value set assign Eco the same code. -/
theorem encode_categorical_per_call_mapping_witness :
    codeOf [some "Eco", some "Eco"] "Eco" = codeOf [some "Eco"] "Eco" :=
  encode_categorical_per_call_mapping.1 [some "Eco", some "Eco"] [some "Eco"]
    (by decide) "Eco"

/-- C3: after `encode_categorical` returns, no column of the returned
table is a string column, and every column that was a string column has
been replaced by an integer column. -/
theorem encode_categorical_no_string_columns (df : DataFrame) :
    (((encode_categorical df).all fun p => !p.2.isStringCol) = true) ∧
    (∀ name vals, getCol df name = some (.strCol vals) →
      ∃ zs : List Int, getCol (encode_categorical df) name = some (.intCol zs)) := by
  constructor
  · rw [List.all_eq_true]
    intro p hp
    simp [encode_all_not_string df p hp]
  · intro name vals h
    rw [getCol_encode, h]
    exact ⟨catCodes vals, rfl⟩

/-- Witness for C3 at a concrete mixed table. -/
theorem encode_categorical_no_string_columns_witness :
    (((encode_categorical [("Class", Column.strCol [some "Eco"]),
        ("Age", Column.intCol [18])]).all fun p => !p.2.isStringCol) = true) ∧
    ∃ zs : List Int,
      getCol (encode_categorical [("Class", Column.strCol [some "Eco"]),
        ("Age", Column.intCol [18])]) "Class" = some (.intCol zs) :=
  ⟨(encode_categorical_no_string_columns _).1,
    (encode_categorical_no_string_columns _).2 "Class" [some "Eco"] (by decide)⟩

/-- C4: `encode_categorical` leaves every numeric column unchanged value
for value, is the identity on tables whose columns are all already
integer, and is idempotent. -/
theorem encode_categorical_numeric_untouched (df : DataFrame) :
    (∀ name zs, getCol df name = some (.intCol zs) →
      getCol (encode_categorical df) name = some (.intCol zs)) ∧
    ((∀ p ∈ df, p.2.isStringCol = false) → encode_categorical df = df) ∧
    encode_categorical (encode_categorical df) = encode_categorical df := by
  refine ⟨?_, fun h => encode_of_no_string_columns h, encode_categorical_idem df⟩
  intro name zs h
  rw [getCol_encode, h]
  rfl

/-- Witness for C4 at concrete tables. -/
theorem encode_categorical_numeric_untouched_witness :
    getCol (encode_categorical [("Age", Column.intCol [18]),
        ("Class", Column.strCol [some "Eco"])]) "Age" = some (.intCol [18]) ∧
    encode_categorical [("Age", Column.intCol [18])] = [("Age", Column.intCol [18])] :=
  ⟨(encode_categorical_numeric_untouched _).1 "Age" [18] (by decide),
    (encode_categorical_numeric_untouched [("Age", Column.intCol [18])]).2.1 (by decide)⟩

/-- C5: on a string column that contains missing entries,
`encode_categorical` encodes every entry through one value-to-code
function that sends each missing entry to the single sentinel code `-1`,
strictly below the code of every present string value, and drops no rows:
every column of the encoded table has exactly as many rows as it had in
the input. -/
theorem encode_categorical_missing_values (df : DataFrame) (name : String)
    (vals : List (Option String)) (h : getCol df name = some (.strCol vals)) :
    ∃ code : String → Int,
      getCol (encode_categorical df) name
        = some (.intCol (vals.map fun v => v.elim (-1) code)) ∧
      (∀ s, some s ∈ vals → -1 < code s) ∧
      (vals.map fun v => v.elim (-1) code).length = vals.length ∧
      (∀ name2 col, getCol df name2 = some col →
        ∃ col2, getCol (encode_categorical df) name2 = some col2 ∧
          col2.nrows = col.nrows) := by
  refine ⟨codeOf vals, ?_, ?_, List.length_map _ _, ?_⟩
  · rw [getCol_encode, h]
    simp [encodeColumn, catCodes_eq_elim]
  · intro s _
    exact lt_of_lt_of_le (by norm_num) (codeOf_nonneg vals s)
  · intro name2 col h2
    rw [getCol_encode, h2]
    exact ⟨encodeColumn col, rfl, encodeColumn_nrows col⟩

/-- Witness for C5 at a column with a missing entry. -/
theorem encode_categorical_missing_values_witness :
    ∃ code : String → Int,
      getCol (encode_categorical [("C", Column.strCol [some "b", none, some "a"])]) "C"
        = some (.intCol (([some "b", none, some "a"].map fun v => v.elim (-1) code))) ∧
      (∀ s, some s ∈ [some "b", none, some "a"] → -1 < code s) ∧
      ([some "b", none, some "a"].map fun v => v.elim (-1) code).length
        = [some "b", none, some "a"].length ∧
      (∀ name2 col,
        getCol [("C", Column.strCol [some "b", none, some "a"])] name2 = some col →
        ∃ col2,
          getCol (encode_categorical [("C", Column.strCol [some "b", none, some "a"])])
            name2 = some col2 ∧ col2.nrows = col.nrows) :=
  encode_categorical_missing_values _ "C" [some "b", none, some "a"] (by decide)

/-- C6: every failure raised by any stage of the predict/explain path of
`make_prediction` (transform, predict, SHAP explanation, LIME explanation)
is caught at the request boundary and converted into the single
user-visible `errorMessage`; on failure no component of the result is
present (no label, no SHAP values, no expected value, no transformed
record, no LIME explanation), and on success all five components are
present and no error is shown. -/
theorem make_prediction_error_boundary {T S L : Type}
    (transform : DataFrame → Except String T) (predict : T → Except String Bool)
    (shapValues : T → Except String S) (limeExplain : T → Except String L)
    (ev : Int) (df : DataFrame) :
    (∀ e, (make_prediction transform predict shapValues limeExplain ev df).2 = some e →
      (make_prediction transform predict shapValues limeExplain ev df).1
        = (none, none, none, none, none)) ∧
    ((make_prediction transform predict shapValues limeExplain ev df).2 = none →
      ∃ p sv t le, make_prediction transform predict shapValues limeExplain ev df
        = ((some (labelOf p), some sv, some ev, some t, some le), none)) ∧
    (∀ e, (transform (encode_categorical df) = .error e ∨
      (∃ t, transform (encode_categorical df) = .ok t ∧
        (predict t = .error e ∨
        (∃ p, predict t = .ok p ∧
          (shapValues t = .error e ∨
          (∃ sv, shapValues t = .ok sv ∧ limeExplain t = .error e)))))) →
      make_prediction transform predict shapValues limeExplain ev df
        = ((none, none, none, none, none), some (errorMessage e))) := by
  refine ⟨?_, ?_, ?_⟩
  · intro e he
    rcases ht : transform (encode_categorical df) with e0 | t0
    · simp [make_prediction, ht]
    · rcases hp : predict t0 with e1 | p0
      · simp [make_prediction, ht, hp]
      · rcases hs : shapValues t0 with e2 | sv0
        · simp [make_prediction, ht, hp, hs]
        · rcases hl : limeExplain t0 with e3 | le0
          · simp [make_prediction, ht, hp, hs, hl]
          · simp [make_prediction, ht, hp, hs, hl] at he
  · intro hnone
    rcases ht : transform (encode_categorical df) with e0 | t0
    · simp [make_prediction, ht] at hnone
    · rcases hp : predict t0 with e1 | p0
      · simp [make_prediction, ht, hp] at hnone
      · rcases hs : shapValues t0 with e2 | sv0
        · simp [make_prediction, ht, hp, hs] at hnone
        · rcases hl : limeExplain t0 with e3 | le0
          · simp [make_prediction, ht, hp, hs, hl] at hnone
          · exact ⟨p0, sv0, t0, le0, by simp [make_prediction, ht, hp, hs, hl]⟩
  · intro e hfail
    rcases hfail with ht | ⟨t0, ht, hrest⟩
    · simp [make_prediction, ht]
    · rcases hrest with hp | ⟨p0, hp, hrest⟩
      · simp [make_prediction, ht, hp]
      · rcases hrest with hs | ⟨sv0, hs, hl⟩
        · simp [make_prediction, ht, hp, hs]
        · simp [make_prediction, ht, hp, hs, hl]

/-- Witness for C6: a failing transform stage yields the single error
message and an all-absent result. -/
theorem make_prediction_error_boundary_witness :
    make_prediction (fun _ : DataFrame => (Except.error "boom" : Except String Unit))
        (fun _ => Except.ok true) (fun _ => Except.ok (0 : Int))
        (fun _ => Except.ok "lime") 0 []
      = ((none, none, none, none, none), some (errorMessage "boom")) :=
  (make_prediction_error_boundary _ _ _ _ 0 []).2.2 "boom" (Or.inl rfl)

/-- C7: the predict path is deterministic as a two-run property: with the
same fitted transform and the same model, running the path a second time
(on the record as the first run left it, since `encode_categorical`
mutates the record in place) produces the same prediction and the same
record state as the first run, because encoding is idempotent. -/
theorem predictPath_deterministic {T : Type}
    (transform : DataFrame → Except String T) (predict : T → Except String Bool)
    (df : DataFrame) :
    predictPath transform predict (predictPath transform predict df).2
      = predictPath transform predict df := by
  simp [predictPath, encode_categorical_idem df]

/-- C8: with the collaborators the spec describes (a total fitted
transform, a model producing a Boolean class, total explainers), the
predict path on the all-defaults input record completes without an error
and returns a label that is one of exactly the two values
`Satisfied 😊` and `Not Satisfied 😞`. -/
theorem make_prediction_default_label {T S L : Type}
    (transform : DataFrame → T) (predict : T → Bool)
    (shap : T → S) (lime : T → L) (ev : Int) :
    ∃ lbl sv t le,
      make_prediction (fun d => Except.ok (transform d))
          (fun x => Except.ok (predict x)) (fun x => Except.ok (shap x))
          (fun x => Except.ok (lime x)) ev user_input_features_default
        = ((some lbl, some sv, some ev, some t, some le), none) ∧
      (lbl = "Satisfied 😊" ∨ lbl = "Not Satisfied 😞") := by
  refine ⟨labelOf (predict (transform (encode_categorical user_input_features_default))),
    shap (transform (encode_categorical user_input_features_default)),
    transform (encode_categorical user_input_features_default),
    lime (transform (encode_categorical user_input_features_default)), rfl, ?_⟩
  cases hb : predict (transform (encode_categorical user_input_features_default)) with
  | true => exact Or.inl (by simp [labelOf])
  | false => exact Or.inr (by simp [labelOf])

/-- C9: `encode_categorical` is total on tables and drops nothing: the
encoded table has the same number of columns, the same column names in
order, and every column keeps its row count; an empty string column is
mapped to an empty integer column, and a column holding a single distinct
value maps every entry of that value to one code. -/
theorem encode_categorical_total (df : DataFrame) :
    ((encode_categorical df).length = df.length) ∧
    ((encode_categorical df).map Prod.fst = df.map Prod.fst) ∧
    (∀ name col, getCol df name = some col →
      ∃ col2, getCol (encode_categorical df) name = some col2 ∧
        col2.nrows = col.nrows) ∧
    (∀ name, encode_categorical [(name, .strCol [])] = [(name, .intCol [])]) ∧
    (∀ name s n, encode_categorical [(name, .strCol (List.replicate n (some s)))]
      = [(name, .intCol (List.replicate n 0))]) := by
  refine ⟨by simp [encode_categorical], ?_, ?_, fun name => rfl, ?_⟩
  · induction df with
    | nil => rfl
    | cons p df ih =>
      simp only [encode_categorical, List.map_cons] at ih ⊢
      rw [ih]
  · intro name col h2
    rw [getCol_encode, h2]
    exact ⟨encodeColumn col, rfl, encodeColumn_nrows col⟩
  · intro name s n
    simp [encode_categorical, encodeColumn, catCodes_replicate]

/-- Witness for C9: the row count of a concrete single-column table is
preserved. -/
theorem encode_categorical_total_witness :
    ∃ col2, getCol (encode_categorical [("C", Column.strCol [some "x"])]) "C"
        = some col2 ∧ col2.nrows = (Column.strCol [some "x"]).nrows :=
  (encode_categorical_total _).2.2.1 "C" (Column.strCol [some "x"]) (by decide)

/-- C10: `encode_categorical` assigns codes by the lexicographically
sorted order of the distinct non-null values of a string column — the
value-to-code function is strictly monotone in code-point lexicographic
order on the values present — so the codes of the present values are
exactly the contiguous range 0..k-1 for k distinct non-null values, null
entries receive the code -1, strictly below the code of every present
string, and in a single-row table every string value encodes to 0
regardless of which string it is. -/
theorem encode_categorical_sorted_codes (df : DataFrame) (name : String)
    (vals : List (Option String)) (h : getCol df name = some (.strCol vals)) :
    ∃ code : String → Int,
      getCol (encode_categorical df) name
        = some (.intCol (vals.map fun v => v.elim (-1) code)) ∧
      (∀ s t, some s ∈ vals → some t ∈ vals →
        ((strle s t ∧ s ≠ t) ↔ code s < code t)) ∧
      ((vals.filterMap id).map code).toFinset
        = (Finset.range (vals.filterMap id).toFinset.card).image (fun n : Nat => (n : Int)) ∧
      (∀ s, some s ∈ vals → -1 < code s) ∧
      (∀ s : String, encode_categorical [(name, .strCol [some s])]
        = [(name, .intCol [0])]) := by
  refine ⟨codeOf vals, ?_, ?_, ?_, ?_, ?_⟩
  · rw [getCol_encode, h]
    simp [encodeColumn, catCodes_eq_elim]
  · intro s t hs ht
    rw [some_mem_iff] at hs ht
    constructor
    · rintro ⟨hle, hne⟩
      exact codeOf_lt_codeOf hs ht hle hne
    · intro hlt
      by_cases hst : s = t
      · subst hst
        exact absurd hlt (lt_irrefl _)
      · rcases total_of strle s t with hle | hle
        · exact ⟨hle, hst⟩
        · exact absurd (codeOf_lt_codeOf ht hs hle (Ne.symm hst))
            (not_lt.mpr (le_of_lt hlt))
  · rw [toFinset_map_eq_image]
    apply Finset.eq_of_subset_of_card_le
    · intro x hx
      rw [Finset.mem_image] at hx
      obtain ⟨s, hs, rfl⟩ := hx
      rw [List.mem_toFinset] at hs
      have h1 := codeOf_lt_card hs
      have h0 := codeOf_nonneg vals s
      rw [Finset.mem_image]
      refine ⟨(codeOf vals s).toNat, ?_, Int.toNat_of_nonneg h0⟩
      rw [Finset.mem_range]
      omega
    · have hcard1 : ((vals.filterMap id).toFinset.image (codeOf vals)).card
          = (vals.filterMap id).toFinset.card := by
        apply Finset.card_image_of_injOn
        intro s hs t ht hst
        simp only [Finset.mem_coe, List.mem_toFinset] at hs ht
        exact (codeOf_inj hs ht).mp hst
      rw [hcard1]
      exact le_trans Finset.card_image_le (le_of_eq (Finset.card_range _))
  · intro s _
    exact lt_of_lt_of_le (by norm_num) (codeOf_nonneg vals s)
  · intro s
    have hc : catCodes [some s] = [0] := by simpa using catCodes_replicate s 1
    simp [encode_categorical, encodeColumn, hc]

/-- Witness for C10 at a column holding b, a missing entry, and a. -/
theorem encode_categorical_sorted_codes_witness :
    ∃ code : String → Int,
      getCol (encode_categorical [("C", Column.strCol [some "b", none, some "a"])]) "C"
        = some (.intCol (([some "b", none, some "a"].map fun v => v.elim (-1) code))) ∧
      (∀ s t, some s ∈ [some "b", none, some "a"] →
        some t ∈ [some "b", none, some "a"] →
        ((strle s t ∧ s ≠ t) ↔ code s < code t)) ∧
      (([some "b", none, some "a"].filterMap id).map code).toFinset
        = (Finset.range
            ([some "b", none, some "a"].filterMap id).toFinset.card).image
          (fun n : Nat => (n : Int)) ∧
      (∀ s, some s ∈ [some "b", none, some "a"] → -1 < code s) ∧
      (∀ s : String, encode_categorical [("C", Column.strCol [some s])]
        = [("C", Column.intCol [0])]) :=
  encode_categorical_sorted_codes _ "C" [some "b", none, some "a"] (by decide)

end MLApp
